import Mathlib

/-!
Verification development for the pygenogrove binding surface.

The repository itself holds only the pybind11 binding layer
(`src/bindings.cpp`); the genogrove engine it binds
(`interval.hpp`, `key.hpp`, `query_result.hpp`, `grove.hpp`) is an
external header set that is not part of the repository sources.  All
engine-level definitions below are therefore modelled from the
specification; the binding-level definitions (the by-value key copy in
`insert` / `insert_sorted`) come from `src/bindings.cpp` itself.
-/

/-- Modelled from the spec: `interval.hpp` is not in the repository.  §3:
an interval is a pair of unsigned integers `start`, `end` denoting the
half-open range `[start, end)`. -/
structure interval where
  start : Nat
  «end» : Nat
deriving DecidableEq, Repr

/-- Modelled from the spec: the interval constructor `construct(start, end)`
(§4.1).  The binding (`bindings.cpp` lines 32-35) forwards both arguments
unchanged via `py::init<size_t, size_t>()`, and §7 notes that the source
surface does not guarantee normalization, so the bounds are stored as
given. -/
def interval.construct (s e : Nat) : interval := ⟨s, e⟩

/-- Modelled from the spec: `operator<` — intervals order first by `start`,
tie-broken by `end` (§3). -/
def interval.lt (a b : interval) : Bool :=
  a.start < b.start || (a.start == b.start && a.«end» < b.«end»)

/-- Modelled from the spec: `operator>` — the mirror of `operator<` in the
same total order (§3, §4.1). -/
def interval.gt (a b : interval) : Bool :=
  interval.lt b a

/-- Modelled from the spec: `operator==` — equality is structural (§3). -/
def interval.eq (a b : interval) : Bool :=
  a.start == b.start && a.«end» == b.«end»

/-- Modelled from the spec: `interval::overlap(a, b)` is true iff
`a.start < b.end && b.start < a.end` (§3). -/
def interval.overlap (a b : interval) : Bool :=
  a.start < b.«end» && b.start < a.«end»

/-- Modelled from the spec: `key.hpp` is not in the repository.  §3: a key
wraps exactly one interval by value. -/
structure key where
  value : interval
deriving DecidableEq, Repr

/-- Modelled from the spec: `query_result.hpp` is not in the repository.
§3: a query result owns the query interval and the ordered sequence of
matching keys. -/
structure query_result where
  query : interval
  keys : List key
deriving DecidableEq, Repr

/-- Non-strict interval order on keys: `k₁ ≤ k₂` iff `k₂.value` is not
strictly below `k₁.value`.  Trees are sorted with respect to this
relation. -/
def key_le (k₁ k₂ : key) : Prop :=
  interval.lt k₂.value k₁.value = false

instance : DecidableRel key_le := fun _ _ =>
  inferInstanceAs (Decidable (_ = false))

/-- Modelled from the spec: a B+ tree index is represented by its leaf
chain, the ordered sequence of stored keys (§4.2: the leaves hold the
actual keys and are linked left-to-right; §9: the internal node structure
is not observable from the binding surface).  `insert` places the new key
at its sorted position, after any equal keys already present (§3: ties
broken by insertion order). -/
def tree_insert : List key → key → List key
  | [], k => [k]
  | x :: xs, k =>
      if interval.lt k.value x.value then k :: x :: xs
      else x :: tree_insert xs k

/-- Modelled from the spec: `insert_sorted` appends directly to the
rightmost leaf; the caller guarantees the new key exceeds every stored key
(§4.2). -/
def tree_insert_sorted (t : List key) (k : key) : List key :=
  t ++ [k]

/-- Modelled from the spec: a tree's `intersect` returns every stored key
whose interval overlaps the query, exactly once, in stored order (§4.2). -/
def tree_intersect (t : List key) (q : interval) : List key :=
  t.filter fun k => interval.overlap q k.value

/-- Modelled from the spec: `grove.hpp` is not in the repository.  §3, §4.3:
a grove owns the fixed order (branching factor) and the mapping from index
names to trees, kept in first-seen order. -/
structure grove where
  order : Nat
  trees : List (String × List key)
deriving DecidableEq, Repr

/-- Modelled from the spec: get-or-create on the named-tree mapping — the
first insert to an unseen name creates that tree (§3, §4.3). -/
def trees_upsert (f : List key → key → List key) :
    List (String × List key) → String → key → List (String × List key)
  | [], name, k => [(name, f [] k)]
  | (n, t) :: rest, name, k =>
      if n == name then (n, f t k) :: rest
      else (n, t) :: trees_upsert f rest name k

/-- Modelled from the spec: pure lookup (no creation) on the named-tree
mapping, used by queries (§9). -/
def trees_lookup : List (String × List key) → String → Option (List key)
  | [], _ => none
  | (n, t) :: rest, name =>
      if n == name then some t else trees_lookup rest name

/-- Modelled from the spec: `grove::insert(index, key)` — creates the named
tree on first use and delegates to the tree's `insert` (§4.3). -/
def grove.insert (g : grove) (name : String) (k : key) : grove :=
  { g with trees := trees_upsert tree_insert g.trees name k }

/-- Modelled from the spec: `grove::insert_sorted(index, key)` — same
creation-on-first-use semantics, delegating to `insert_sorted` (§4.3). -/
def grove.insert_sorted (g : grove) (name : String) (k : key) : grove :=
  { g with trees := trees_upsert tree_insert_sorted g.trees name k }

/-- Modelled from the spec: the named-index `intersect` overload — restricts
the search to one named tree; an unknown name yields an empty result, not
an error (§4.3). -/
def grove.intersect_named (g : grove) (q : interval) (name : String) :
    query_result :=
  match trees_lookup g.trees name with
  | none => ⟨q, []⟩
  | some t => ⟨q, tree_intersect t q⟩

/-- Modelled from the spec: the all-indices `intersect` overload — fans the
query across every tree and concatenates each tree's matches in
index-iteration order (§4.3). -/
def grove.intersect_all (g : grove) (q : interval) : query_result :=
  ⟨q, (g.trees.map fun p => tree_intersect p.2 q).flatten⟩

/-- Modelled from the spec: `grove::size()` — the sum of all trees' entry
counts (§3, §4.3). -/
def grove.size (g : grove) : Nat :=
  (g.trees.map fun p => p.2.length).sum

/-- Modelled from the spec: `grove::get_order()` — the fixed branching
factor (§4.3). -/
def grove.get_order (g : grove) : Nat :=
  g.order

/-- Modelled from the spec: a freshly constructed grove with the given
order and no trees (§4.3). -/
def grove.empty (ord : Nat) : grove :=
  ⟨ord, []⟩

/-- All stored entries of a grove, tree by tree in index-iteration order. -/
def grove.stored (g : grove) : List key :=
  (g.trees.map Prod.snd).flatten

/-- A sequence of binding-level `insert` calls, each a (index name,
interval) pair, applied to a fresh grove.  The binding (`bindings.cpp`
lines 120-125) wraps each interval in a fresh key. -/
def grove.build_inserts (ord : Nat) (ops : List (String × interval)) : grove :=
  ops.foldl (fun g p => g.insert p.1 ⟨p.2⟩) (grove.empty ord)

/-- A sequence of `insert` calls of the given intervals, in order, into one
named index of a fresh grove. -/
def grove.build_insert_seq (ord : Nat) (name : String) (ivs : List interval) :
    grove :=
  ivs.foldl (fun g iv => g.insert name ⟨iv⟩) (grove.empty ord)

/-- The same sequence inserted via `insert_sorted` instead. -/
def grove.build_sorted_seq (ord : Nat) (name : String) (ivs : List interval) :
    grove :=
  ivs.foldl (fun g iv => g.insert_sorted name ⟨iv⟩) (grove.empty ord)

/-- A binding-level mutation command: either an insert call or a setter
call on a caller-held Interval object. -/
inductive gcmd where
  | ins (name : String) (iv : interval)
  | ins_sorted (name : String) (iv : interval)
deriving DecidableEq, Repr

/-- The index name a command targets. -/
def gcmd.name : gcmd → String
  | .ins n _ => n
  | .ins_sorted n _ => n

/-- Applying one insert command to a grove, as the binding does: the
interval is wrapped in a fresh key (`bindings.cpp` lines 120-125 and
142-147). -/
def grove.apply (g : grove) : gcmd → grove
  | .ins n iv => g.insert n ⟨iv⟩
  | .ins_sorted n iv => g.insert_sorted n ⟨iv⟩

/-- A grove built from a fresh grove by a sequence of insert commands. -/
def grove.build (ord : Nat) (cs : List gcmd) : grove :=
  cs.foldl grove.apply (grove.empty ord)

/-- The caller-side (Python) heap of mutable Interval objects, addresses
mapped to their current bounds.  Needed to express what the binding's
by-value key copy means: `insert` reads the object's value at call time. -/
abbrev pyheap := List (Nat × interval)

/-- Current value of the Interval object at an address. -/
def pyheap.get : pyheap → Nat → Option interval
  | [], _ => none
  | (a, iv) :: rest, addr =>
      if a == addr then some iv else pyheap.get rest addr

/-- The `start` setter on a caller-held Interval object
(`bindings.cpp` lines 36-39). -/
def pyheap.write_start (h : pyheap) (addr v : Nat) : pyheap :=
  h.map fun p => if p.1 == addr then (p.1, { p.2 with start := v }) else p

/-- The `end` setter on a caller-held Interval object
(`bindings.cpp` lines 40-43). -/
def pyheap.write_end (h : pyheap) (addr v : Nat) : pyheap :=
  h.map fun p => if p.1 == addr then (p.1, { p.2 with «end» := v }) else p

/-- The binding's `insert` lambda (`bindings.cpp` lines 120-125): it reads
the caller's Interval object and copies its value into a freshly
constructed key (`gdt::key<gdt::interval> key(interval);`) before
delegating to the grove. -/
def binding_insert (g : grove) (h : pyheap) (idx : String) (addr : Nat) :
    grove :=
  match pyheap.get h addr with
  | some iv => g.insert idx ⟨iv⟩
  | none => g

/-- The binding's `insert_sorted` lambda (`bindings.cpp` lines 142-147):
it likewise reads the caller's Interval object and copies its value into a
freshly constructed key before delegating to the grove. -/
def binding_insert_sorted (g : grove) (h : pyheap) (idx : String)
    (addr : Nat) : grove :=
  match pyheap.get h addr with
  | some iv => g.insert_sorted idx ⟨iv⟩
  | none => g

/-- A caller-visible command: an insert or insert_sorted call through the
binding, or a setter call on a caller-held Interval object. -/
inductive pycmd where
  | ins (idx : String) (addr : Nat)
  | ins_sorted (idx : String) (addr : Nat)
  | write_start (addr v : Nat)
  | write_end (addr v : Nat)
deriving DecidableEq, Repr

/-- Whether a command only mutates a caller-held Interval object. -/
def pycmd.is_mut : pycmd → Bool
  | .ins _ _ => false
  | .ins_sorted _ _ => false
  | .write_start _ _ => true
  | .write_end _ _ => true

/-- One step of the caller-visible state (grove, heap). -/
def pystep : grove × pyheap → pycmd → grove × pyheap
  | (g, h), .ins idx a => (binding_insert g h idx a, h)
  | (g, h), .ins_sorted idx a => (binding_insert_sorted g h idx a, h)
  | (g, h), .write_start a v => (g, pyheap.write_start h a v)
  | (g, h), .write_end a v => (g, pyheap.write_end h a v)

/-- Running a command sequence. -/
def pyrun (s : grove × pyheap) (cs : List pycmd) : grove × pyheap :=
  cs.foldl pystep s

/-! ### Order lemmas for `interval.lt` -/

theorem interval.lt_iff (a b : interval) :
    interval.lt a b = true ↔
      a.start < b.start ∨ (a.start = b.start ∧ a.«end» < b.«end») := by
  simp [interval.lt, Bool.or_eq_true, Bool.and_eq_true, decide_eq_true_eq,
    beq_iff_eq]

theorem interval.lt_irrefl (a : interval) : interval.lt a a = false := by
  have := interval.lt_iff a a
  cases hc : interval.lt a a
  · rfl
  · exact absurd (this.mp hc) (by omega)

theorem interval.lt_asymm {a b : interval} (h : interval.lt a b = true) :
    interval.lt b a = false := by
  rw [interval.lt_iff] at h
  cases hc : interval.lt b a
  · rfl
  · rw [interval.lt_iff] at hc
    omega

theorem interval.lt_trans {a b c : interval} (hab : interval.lt a b = true)
    (hbc : interval.lt b c = true) : interval.lt a c = true := by
  rw [interval.lt_iff] at hab hbc ⊢
  omega

theorem interval.lt_of_not_lt_of_ne {a b : interval}
    (h : interval.lt a b = false) (hne : a ≠ b) :
    interval.lt b a = true := by
  rw [interval.lt_iff]
  have h' : ¬ (a.start < b.start ∨ (a.start = b.start ∧ a.«end» < b.«end»)) := by
    rw [← interval.lt_iff]
    simp [h]
  have hne' : a.start ≠ b.start ∨ a.«end» ≠ b.«end» := by
    by_contra hcon
    push_neg at hcon
    exact hne (by cases a; cases b; simp_all)
  omega

/-! ### Tree-level lemmas -/

theorem mem_tree_insert {y : key} {t : List key} {k : key} :
    y ∈ tree_insert t k ↔ y ∈ t ∨ y = k := by
  induction t with
  | nil => simp [tree_insert]
  | cons x xs ih =>
    rw [tree_insert]
    cases hc : interval.lt k.value x.value <;> simp [ih] <;> tauto

theorem tree_insert_pairwise {t : List key} {k : key}
    (h : t.Pairwise key_le) : (tree_insert t k).Pairwise key_le := by
  induction t with
  | nil => simp [tree_insert]
  | cons x xs ih =>
    rw [List.pairwise_cons] at h
    rw [tree_insert]
    by_cases hc : interval.lt k.value x.value = true
    · simp only [hc, if_true]
      refine List.pairwise_cons.mpr ⟨?_, List.pairwise_cons.mpr ⟨h.1, h.2⟩⟩
      intro y hy
      rcases List.mem_cons.mp hy with hy | hy
      · subst hy
        exact interval.lt_asymm hc
      · have hxy : key_le x y := h.1 y hy
        unfold key_le at hxy ⊢
        cases hyk : interval.lt y.value k.value
        · rfl
        · exact absurd (interval.lt_trans hyk hc) (by simp [hxy])
    · simp only [hc, if_false]
      refine List.pairwise_cons.mpr ⟨?_, ih h.2⟩
      intro y hy
      rcases mem_tree_insert.mp hy with hy | hy
      · exact h.1 y hy
      · subst hy
        unfold key_le
        simpa using hc

theorem tree_insert_length (t : List key) (k : key) :
    (tree_insert t k).length = t.length + 1 := by
  induction t with
  | nil => rfl
  | cons x xs ih =>
    rw [tree_insert]
    by_cases hc : interval.lt k.value x.value = true
    · simp [hc]
    · simp [hc, ih]

theorem tree_insert_append {t : List key} {k : key}
    (h : ∀ x ∈ t, interval.lt x.value k.value = true) :
    tree_insert t k = t ++ [k] := by
  induction t with
  | nil => rfl
  | cons x xs ih =>
    rw [tree_insert]
    have hx : interval.lt x.value k.value = true := h x (by simp)
    rw [interval.lt_asymm hx]
    simp only [Bool.false_eq_true, if_false, List.cons_append, List.cons.injEq,
      true_and]
    exact ih fun y hy => h y (by simp [hy])

theorem tree_intersect_sublist (t : List key) (q : interval) :
    (tree_intersect t q).Sublist t :=
  List.filter_sublist t

theorem tree_intersect_pairwise {t : List key} (q : interval)
    (h : t.Pairwise key_le) : (tree_intersect t q).Pairwise key_le :=
  h.sublist (tree_intersect_sublist t q)

theorem count_filter_eq (p : key → Bool) (l : List key) (k : key) :
    (l.filter p).count k = if p k = true then l.count k else 0 := by
  by_cases h : p k = true
  · rw [if_pos h, List.count_filter h]
  · rw [if_neg h, List.count_eq_zero]
    intro hk
    exact h (List.of_mem_filter hk)

theorem flatten_map_filter (p : key → Bool) (l : List (List key)) :
    (l.map fun t => t.filter p).flatten = l.flatten.filter p := by
  induction l with
  | nil => rfl
  | cons t rest ih =>
    rw [List.map_cons, List.flatten_cons, List.flatten_cons,
      List.filter_append, ih]

/-! ### Named-tree mapping lemmas -/

theorem trees_lookup_upsert_ne (f : List key → key → List key)
    {a b : String} (hne : a ≠ b) (ts : List (String × List key)) (k : key) :
    trees_lookup (trees_upsert f ts a k) b = trees_lookup ts b := by
  induction ts with
  | nil =>
    have : (a == b) = false := by simpa using hne
    simp [trees_upsert, trees_lookup, this]
  | cons p rest ih =>
    obtain ⟨n, t⟩ := p
    rw [trees_upsert]
    cases hna : n == a
    · simp only [Bool.false_eq_true, if_false]
      rw [trees_lookup]
      cases hnb : n == b
      · simp only [Bool.false_eq_true, if_false, ih]
        rw [trees_lookup, hnb]
        simp
      · rw [trees_lookup, hnb]
        simp
    · have hn : n = a := by simpa using hna
      have hnb : (n == b) = false := by
        simp [hn, hne]
      simp only [if_true]
      rw [trees_lookup, trees_lookup, hnb]
      simp

theorem trees_upsert_sum_lengths (f : List key → key → List key)
    (hf : ∀ t k, (f t k).length = t.length + 1)
    (ts : List (String × List key)) (name : String) (k : key) :
    ((trees_upsert f ts name k).map fun p => p.2.length).sum
      = ((ts.map fun p => p.2.length).sum) + 1 := by
  induction ts with
  | nil => simp [trees_upsert, hf]
  | cons p rest ih =>
    obtain ⟨n, t⟩ := p
    rw [trees_upsert]
    cases hna : n == name
    · simp only [Bool.false_eq_true, if_false, List.map_cons, List.sum_cons, ih]
      omega
    · simp only [if_true, List.map_cons, List.sum_cons, hf]
      omega

theorem grove_insert_size (g : grove) (name : String) (k : key) :
    (g.insert name k).size = g.size + 1 := by
  unfold grove.insert grove.size
  exact trees_upsert_sum_lengths tree_insert tree_insert_length g.trees name k

/-! ### Fold lemmas for building groves -/

theorem build_inserts_size (ord : Nat) (ops : List (String × interval)) :
    (grove.build_inserts ord ops).size = ops.length := by
  unfold grove.build_inserts
  suffices h : ∀ (g : grove),
      (ops.foldl (fun g p => g.insert p.1 ⟨p.2⟩) g).size = g.size + ops.length by
    rw [h (grove.empty ord)]
    simp [grove.empty, grove.size]
  induction ops with
  | nil => intro g; simp
  | cons p rest ih =>
    intro g
    rw [List.foldl_cons, ih, grove_insert_size, List.length_cons]
    omega

theorem build_none_of_names_ne (name : String) (cs : List gcmd) (g : grove)
    (hg : trees_lookup g.trees name = none)
    (hcs : ∀ c ∈ cs, gcmd.name c ≠ name) :
    trees_lookup (cs.foldl grove.apply g).trees name = none := by
  induction cs generalizing g with
  | nil => exact hg
  | cons c rest ih =>
    rw [List.foldl_cons]
    refine ih _ ?_ fun d hd => hcs d (by simp [hd])
    have hc : gcmd.name c ≠ name := hcs c (by simp)
    cases c with
    | ins n iv =>
      rw [gcmd.name] at hc
      rw [grove.apply, grove.insert]
      rw [trees_lookup_upsert_ne tree_insert hc g.trees]
      exact hg
    | ins_sorted n iv =>
      rw [gcmd.name] at hc
      rw [grove.apply, grove.insert_sorted]
      rw [trees_lookup_upsert_ne tree_insert_sorted hc g.trees]
      exact hg

/-! ### Lemmas for strictly increasing insertion sequences -/

theorem chain_lt_all {iv : interval} {rest : List interval}
    (h : (iv :: rest).Chain' fun a b => interval.lt a b = true) :
    ∀ r ∈ rest, interval.lt iv r = true := by
  induction rest generalizing iv with
  | nil => intro r hr; cases hr
  | cons b bs ih =>
    have h1 : interval.lt iv b = true := (List.chain'_cons.mp h).1
    have h2 := (List.chain'_cons.mp h).2
    intro r hr
    rcases List.mem_cons.mp hr with hr | hr
    · subst hr; exact h1
    · exact interval.lt_trans h1 (ih h2 r hr)

theorem foldl_tree_insert_all_gt {ivs : List interval} :
    ∀ {t : List key},
      (∀ x ∈ t, ∀ iv ∈ ivs, interval.lt x.value iv = true) →
      ivs.Chain' (fun a b => interval.lt a b = true) →
      ivs.foldl (fun t iv => tree_insert t ⟨iv⟩) t
        = t ++ ivs.map fun iv => (⟨iv⟩ : key) := by
  induction ivs with
  | nil => intro t _ _; simp
  | cons iv rest ih =>
    intro t hall hchain
    rw [List.foldl_cons,
      tree_insert_append fun x hx => hall x hx iv (by simp),
      ih ?_ hchain.tail]
    · simp
    · intro x hx r hr
      rcases List.mem_append.mp hx with hx | hx
      · exact hall x hx r (by simp [hr])
      · have hxk : x = (⟨iv⟩ : key) := by simpa using hx
        subst hxk
        exact chain_lt_all hchain r hr

theorem foldl_tree_insert_sorted (ivs : List interval) :
    ∀ t : List key,
      ivs.foldl (fun t iv => tree_insert_sorted t ⟨iv⟩) t
        = t ++ ivs.map fun iv => (⟨iv⟩ : key) := by
  induction ivs with
  | nil => intro t; simp
  | cons iv rest ih =>
    intro t
    rw [List.foldl_cons, ih, tree_insert_sorted]
    simp

theorem foldl_insert_single (ord : Nat) (name : String) (ivs : List interval) :
    ∀ t : List key,
      ivs.foldl (fun g iv => g.insert name ⟨iv⟩) (⟨ord, [(name, t)]⟩ : grove)
        = ⟨ord, [(name, ivs.foldl (fun t iv => tree_insert t ⟨iv⟩) t)]⟩ := by
  induction ivs with
  | nil => intro t; rfl
  | cons iv rest ih =>
    intro t
    rw [List.foldl_cons]
    have hstep : (⟨ord, [(name, t)]⟩ : grove).insert name ⟨iv⟩
        = ⟨ord, [(name, tree_insert t ⟨iv⟩)]⟩ := by
      simp [grove.insert, trees_upsert]
    rw [hstep, ih, List.foldl_cons]

theorem foldl_insert_sorted_single (ord : Nat) (name : String)
    (ivs : List interval) :
    ∀ t : List key,
      ivs.foldl (fun g iv => g.insert_sorted name ⟨iv⟩)
          (⟨ord, [(name, t)]⟩ : grove)
        = ⟨ord, [(name, ivs.foldl (fun t iv => tree_insert_sorted t ⟨iv⟩) t)]⟩ := by
  induction ivs with
  | nil => intro t; rfl
  | cons iv rest ih =>
    intro t
    rw [List.foldl_cons]
    have hstep : (⟨ord, [(name, t)]⟩ : grove).insert_sorted name ⟨iv⟩
        = ⟨ord, [(name, tree_insert_sorted t ⟨iv⟩)]⟩ := by
      simp [grove.insert_sorted, trees_upsert]
    rw [hstep, ih, List.foldl_cons]

theorem build_insert_eq_build_sorted (ord : Nat) (name : String)
    (ivs : List interval)
    (hchain : ivs.Chain' fun a b => interval.lt a b = true) :
    grove.build_insert_seq ord name ivs = grove.build_sorted_seq ord name ivs := by
  cases ivs with
  | nil => rfl
  | cons iv rest =>
    unfold grove.build_insert_seq grove.build_sorted_seq
    rw [List.foldl_cons, List.foldl_cons]
    have h1 : (grove.empty ord).insert name ⟨iv⟩
        = (⟨ord, [(name, [⟨iv⟩])]⟩ : grove) := by
      simp [grove.empty, grove.insert, trees_upsert, tree_insert]
    have h2 : (grove.empty ord).insert_sorted name ⟨iv⟩
        = (⟨ord, [(name, [⟨iv⟩])]⟩ : grove) := by
      simp [grove.empty, grove.insert_sorted, trees_upsert, tree_insert_sorted]
    rw [h1, h2, foldl_insert_single, foldl_insert_sorted_single]
    have ht : rest.foldl (fun t iv => tree_insert t ⟨iv⟩) [⟨iv⟩]
        = rest.foldl (fun t iv => tree_insert_sorted t ⟨iv⟩) [⟨iv⟩] := by
      have hct : rest.Chain' (fun a b => interval.lt a b = true) := hchain.tail
      rw [foldl_tree_insert_sorted, foldl_tree_insert_all_gt ?_ hct]
      intro x hx r hr
      have hxk : x = (⟨iv⟩ : key) := by simpa using hx
      subst hxk
      exact chain_lt_all hchain r hr
    rw [ht]

/-! ### Lemma for caller-side mutation commands -/

theorem pyrun_mut_fst (cs : List pycmd) :
    ∀ s : grove × pyheap,
      (∀ m ∈ cs, pycmd.is_mut m = true) → (pyrun s cs).1 = s.1 := by
  induction cs with
  | nil => intro s _; rfl
  | cons c rest ih =>
    intro s hm
    show (List.foldl pystep (pystep s c) rest).1 = s.1
    have h1 : (pystep s c).1 = s.1 := by
      cases c with
      | ins idx a =>
        have hins := hm (pycmd.ins idx a) (List.mem_cons_self _ _)
        simp [pycmd.is_mut] at hins
      | ins_sorted idx a =>
        have hins := hm (pycmd.ins_sorted idx a) (List.mem_cons_self _ _)
        simp [pycmd.is_mut] at hins
      | write_start a v => obtain ⟨g, h⟩ := s; rfl
      | write_end a v => obtain ⟨g, h⟩ := s; rfl
    have h2 := ih (pystep s c) fun m hm' => hm m (by simp [hm'])
    rw [← h1]
    exact h2

/-! ### Claim theorems -/

/-- C1 (counterexample to the claim as stated): with two indices the
all-indices `intersect` concatenates per-tree matches in index-iteration
order, so the returned sequence is not globally ascending by the
stored-interval order: after inserting `[10,20)` into `"a"` and `[5,30)`
into `"b"`, the query `[0,100)` returns `[10,20)` before `[5,30)`, a
descending adjacent pair. -/
theorem C1_counterexample_not_globally_ascending :
    ((grove.build_inserts 3 [("a", ⟨10,20⟩), ("b", ⟨5,30⟩)]).intersect_all
        ⟨0,100⟩).keys
      = [⟨⟨10,20⟩⟩, ⟨⟨5,30⟩⟩]
    ∧ interval.lt ⟨5,30⟩ ⟨10,20⟩ = true := by decide

/-- C1 (amended): for every grove whose trees are sorted and every query,
the all-indices `intersect` returns exactly the stored entries overlapping
the query — the result is the overlap-filter of the stored sequence, each
stored entry counted exactly once (no false negatives, no duplicates) —
and each index's contribution is ascending by the stored-interval order;
the contributions are concatenated in index-iteration order. -/
theorem C1_intersect_all_exactly_once (g : grove) (q : interval)
    (hs : ∀ p ∈ g.trees, p.2.Pairwise key_le) :
    ((g.intersect_all q).keys
        = (grove.stored g).filter fun k => interval.overlap q k.value)
    ∧ (∀ k : key, (g.intersect_all q).keys.count k
        = if interval.overlap q k.value = true then (grove.stored g).count k
          else 0)
    ∧ ∀ p ∈ g.trees, (tree_intersect p.2 q).Pairwise key_le := by
  have hflat : (g.intersect_all q).keys
      = (grove.stored g).filter fun k => interval.overlap q k.value := by
    unfold grove.intersect_all grove.stored
    rw [← flatten_map_filter (fun k => interval.overlap q k.value)
      (g.trees.map Prod.snd), List.map_map]
    rfl
  refine ⟨hflat, ?_, ?_⟩
  · intro k
    rw [hflat, count_filter_eq]
  · intro p hp
    exact tree_intersect_pairwise q (hs p hp)

/-- C1 witness: the spec's own scenario — order-3 grove, `[10,20)`,
`[30,40)`, `[15,25)` inserted into `"chr1"`, queried with `[18,32)`. -/
theorem C1_witness :
    ((grove.build_inserts 3 [("chr1", ⟨10,20⟩), ("chr1", ⟨30,40⟩),
        ("chr1", ⟨15,25⟩)]).intersect_all ⟨18,32⟩).keys.count ⟨⟨15,25⟩⟩
      = if interval.overlap ⟨18,32⟩ (⟨15,25⟩ : interval) = true
        then (grove.stored (grove.build_inserts 3 [("chr1", ⟨10,20⟩),
          ("chr1", ⟨30,40⟩), ("chr1", ⟨15,25⟩)])).count ⟨⟨15,25⟩⟩
        else 0 :=
  (C1_intersect_all_exactly_once
    (grove.build_inserts 3 [("chr1", ⟨10,20⟩), ("chr1", ⟨30,40⟩),
      ("chr1", ⟨15,25⟩)]) ⟨18,32⟩ (by decide)).2.1 ⟨⟨15,25⟩⟩

/-- C2 (counterexample to the claim as stated): a zero-length interval can
overlap an interval strictly containing its position — `overlap([5,5),
[3,8))` is true under the claimed formula, contradicting the claim's
consequence that a zero-length interval never overlaps any interval. -/
theorem C2_counterexample_zero_length_overlap :
    (⟨5,5⟩ : interval).start = (⟨5,5⟩ : interval).«end»
    ∧ interval.overlap ⟨5,5⟩ ⟨3,8⟩ = true := by decide

/-- C2 (amended): `overlap(a, b)` is true iff
`a.start < b.end && b.start < a.end`; touching half-open intervals such as
`[5,10)` and `[10,15)` do not overlap while `[5,10)` and `[9,15)` do; a
zero-length interval `[p,p)` overlaps `b` iff `b` strictly contains `p`
(so it never overlaps another zero-length interval and never at touching
endpoints); and for nonempty intervals the formula coincides with the
half-open ranges having a common point. -/
theorem C2_overlap_characterization :
    (∀ a b : interval,
        interval.overlap a b = true ↔ a.start < b.«end» ∧ b.start < a.«end»)
    ∧ interval.overlap ⟨5,10⟩ ⟨10,15⟩ = false
    ∧ interval.overlap ⟨5,10⟩ ⟨9,15⟩ = true
    ∧ (∀ (p : Nat) (b : interval),
        interval.overlap ⟨p,p⟩ b = true ↔ b.start < p ∧ p < b.«end»)
    ∧ (∀ p q : Nat, interval.overlap ⟨p,p⟩ ⟨q,q⟩ = false)
    ∧ ∀ a b : interval, a.start < a.«end» → b.start < b.«end» →
        (interval.overlap a b = true ↔
          ∃ x : Nat, (a.start ≤ x ∧ x < a.«end») ∧ b.start ≤ x ∧ x < b.«end») := by
  refine ⟨?_, by decide, by decide, ?_, ?_, ?_⟩
  · intro a b
    simp [interval.overlap, Bool.and_eq_true, decide_eq_true_eq]
  · intro p b
    simp only [interval.overlap, Bool.and_eq_true, decide_eq_true_eq]
    omega
  · intro p q
    cases hov : interval.overlap ⟨p,p⟩ ⟨q,q⟩
    · rfl
    · simp only [interval.overlap, Bool.and_eq_true, decide_eq_true_eq] at hov
      exact absurd hov (by omega)
  · intro a b ha hb
    simp only [interval.overlap, Bool.and_eq_true, decide_eq_true_eq]
    constructor
    · rintro ⟨h1, h2⟩
      exact ⟨max a.start b.start, ⟨Nat.le_max_left _ _, by omega⟩,
        Nat.le_max_right _ _, by omega⟩
    · rintro ⟨x, ⟨hax, hax'⟩, hbx, hbx'⟩
      omega

/-- C2 witness: `[5,10)` and `[9,15)` overlap, obtained from the nonempty
characterization at the common point `9`. -/
theorem C2_witness : interval.overlap ⟨5,10⟩ ⟨9,15⟩ = true :=
  (C2_overlap_characterization.2.2.2.2.2 ⟨5,10⟩ ⟨9,15⟩ (by decide)
    (by decide)).mpr ⟨9, ⟨by decide, by decide⟩, by decide, by decide⟩

/-- C3: inserting a strictly increasing sequence of intervals into one
named index via `insert` yields the same overlap-query answers — for the
named-index overload at every query and index name, and for the
all-indices overload at every query — as inserting the identical sequence
via `insert_sorted`. -/
theorem C3_insert_equiv_insert_sorted (ord : Nat) (name : String)
    (ivs : List interval) (q : interval) (idx : String)
    (hchain : ivs.Chain' fun a b => interval.lt a b = true) :
    (grove.build_insert_seq ord name ivs).intersect_named q idx
      = (grove.build_sorted_seq ord name ivs).intersect_named q idx
    ∧ (grove.build_insert_seq ord name ivs).intersect_all q
      = (grove.build_sorted_seq ord name ivs).intersect_all q := by
  rw [build_insert_eq_build_sorted ord name ivs hchain]
  exact ⟨rfl, rfl⟩

/-- C3 witness: the strictly increasing sequence `[1,2)`, `[3,4)` inserted
into `"chr1"` both ways, queried with `[0,10)`. -/
theorem C3_witness :
    (grove.build_insert_seq 3 "chr1" [⟨1,2⟩, ⟨3,4⟩]).intersect_named ⟨0,10⟩
        "chr1"
      = (grove.build_sorted_seq 3 "chr1" [⟨1,2⟩, ⟨3,4⟩]).intersect_named
        ⟨0,10⟩ "chr1" :=
  (C3_insert_equiv_insert_sorted 3 "chr1" [⟨1,2⟩, ⟨3,4⟩] ⟨0,10⟩ "chr1"
    (List.chain'_cons.mpr ⟨by decide, List.chain'_singleton _⟩)).1

/-- C4: querying a named index that no insert or insert_sorted command of
the build sequence ever targeted returns an empty QueryResult (length 0,
no keys, the query preserved); the operation is total, so no error is
raised. -/
theorem C4_unknown_index_empty (ord : Nat) (cs : List gcmd) (q : interval)
    (name : String) (h : ∀ c ∈ cs, gcmd.name c ≠ name) :
    ((grove.build ord cs).intersect_named q name).keys.length = 0
    ∧ ((grove.build ord cs).intersect_named q name).keys = []
    ∧ ((grove.build ord cs).intersect_named q name).query = q := by
  have hnone : trees_lookup (grove.build ord cs).trees name = none :=
    build_none_of_names_ne name cs (grove.empty ord) rfl h
  unfold grove.intersect_named
  rw [hnone]
  exact ⟨rfl, rfl, rfl⟩

/-- C4 witness: the spec's scenario — `intersect(q, "chr2")` on a grove
only ever inserted into under `"chr1"` has no results. -/
theorem C4_witness :
    ((grove.build 3 [gcmd.ins "chr1" ⟨10,20⟩]).intersect_named ⟨0,100⟩
        "chr2").keys.length = 0 :=
  (C4_unknown_index_empty 3 [gcmd.ins "chr1" ⟨10,20⟩] ⟨0,100⟩ "chr2"
    (by decide)).1

/-- C5: after any sequence of N `insert` calls (any index names, any
order) on a fresh grove, `size()` equals N; and `size()` is always the sum
of the entry counts of all named trees. -/
theorem C5_size_counts_inserts (ord : Nat) (ops : List (String × interval)) :
    (grove.build_inserts ord ops).size = ops.length
    ∧ ∀ g : grove, g.size = (g.trees.map fun p => p.2.length).sum :=
  ⟨build_inserts_size ord ops, fun _ => rfl⟩

/-- C6 (counterexample to the claim as stated): constructing an Interval
with `start > end` is not rejected — `Interval(10, 5)` constructs the
value with bounds stored as given, so no error surfaces at
construction. -/
theorem C6_counterexample_construct_accepts :
    interval.construct 10 5 = ⟨10, 5⟩ ∧ 10 > 5 := by decide

/-- C6 (amended): constructing an Interval with `start > end` is accepted
by the source surface without any error; the bounds are stored exactly as
given — neither swapped nor normalized — and the `start ≤ end` invariant
is a caller precondition (usage error), not a detected construction
error. -/
theorem C6_construct_keeps_bounds (s e : Nat) (h : s > e) :
    interval.construct s e = ⟨s, e⟩
    ∧ (interval.construct s e).start = s
    ∧ (interval.construct s e).«end» = e :=
  ⟨rfl, rfl, rfl⟩

/-- C6 witness: `Interval(10, 5)` with `10 > 5`. -/
theorem C6_witness : interval.construct 10 5 = ⟨10, 5⟩ :=
  (C6_construct_keeps_bounds 10 5 (by decide)).1

/-- C7: inserting an interval into index `a` leaves the result of
`intersect(query, b)` unchanged for every query interval and every index
name `b` distinct from `a`. -/
theorem C7_insert_other_index_frame (g : grove) (a b : String)
    (iv : interval) (q : interval) (hne : a ≠ b) :
    (g.insert a ⟨iv⟩).intersect_named q b = g.intersect_named q b := by
  have h : trees_lookup (g.insert a ⟨iv⟩).trees b = trees_lookup g.trees b :=
    trees_lookup_upsert_ne tree_insert hne g.trees ⟨iv⟩
  unfold grove.intersect_named
  rw [h]

/-- C7 witness: inserting `[0,100)` into `"chr1"` does not change the
`"chr2"`-scoped result on a grove holding `[1,5)` under `"chr2"`. -/
theorem C7_witness :
    ((grove.build 3 [gcmd.ins "chr2" ⟨1,5⟩]).insert "chr1"
        ⟨⟨0,100⟩⟩).intersect_named ⟨0,10⟩ "chr2"
      = (grove.build 3 [gcmd.ins "chr2" ⟨1,5⟩]).intersect_named ⟨0,10⟩
        "chr2" :=
  C7_insert_other_index_frame (grove.build 3 [gcmd.ins "chr2" ⟨1,5⟩])
    "chr1" "chr2" ⟨0,100⟩ ⟨0,10⟩ (by decide)

/-- C8: `overlap` is symmetric on valid intervals: for every `a`, `b` with
`a.start ≤ a.end` and `b.start ≤ b.end`, `overlap(a, b) = overlap(b, a)`. -/
theorem C8_overlap_symmetric (a b : interval)
    (ha : a.start ≤ a.«end») (hb : b.start ≤ b.«end») :
    interval.overlap a b = interval.overlap b a := by
  unfold interval.overlap
  rw [Bool.and_comm]

/-- C8 witness: symmetry at `[5,10)` and `[9,15)`. -/
theorem C8_witness :
    interval.overlap ⟨5,10⟩ ⟨9,15⟩ = interval.overlap ⟨9,15⟩ ⟨5,10⟩ :=
  C8_overlap_symmetric ⟨5,10⟩ ⟨9,15⟩ (by decide) (by decide)

/-- C9: the comparison operators implement a total order ordered first by
`start`, tie-broken by `end`, with structural equality: `<` holds exactly
on the lexicographic (start, end) order, `>` is its mirror, `==` is
structural equality, and `<` is irreflexive, transitive, asymmetric and
total (trichotomy). -/
theorem C9_comparison_total_order :
    (∀ a b : interval, interval.lt a b = true ↔
        a.start < b.start ∨ (a.start = b.start ∧ a.«end» < b.«end»))
    ∧ (∀ a b : interval, interval.gt a b = interval.lt b a)
    ∧ (∀ a b : interval, interval.eq a b = true ↔ a = b)
    ∧ (∀ a : interval, interval.lt a a = false)
    ∧ (∀ a b c : interval, interval.lt a b = true → interval.lt b c = true →
        interval.lt a c = true)
    ∧ (∀ a b : interval, interval.lt a b = true →
        interval.lt b a = false ∧ a ≠ b)
    ∧ ∀ a b : interval,
        interval.lt a b = true ∨ a = b ∨ interval.lt b a = true := by
  refine ⟨interval.lt_iff, fun a b => rfl, ?_, interval.lt_irrefl,
    fun a b c => interval.lt_trans, ?_, ?_⟩
  · intro a b
    cases a
    cases b
    simp [interval.eq, Bool.and_eq_true, beq_iff_eq, interval.mk.injEq]
  · intro a b hab
    refine ⟨interval.lt_asymm hab, ?_⟩
    rintro rfl
    rw [interval.lt_irrefl] at hab
    cases hab
  · intro a b
    by_cases hab : interval.lt a b = true
    · exact Or.inl hab
    · by_cases heq : a = b
      · exact Or.inr (Or.inl heq)
      · exact Or.inr (Or.inr
          (interval.lt_of_not_lt_of_ne (by simpa using hab) heq))

/-- C9 witness: transitivity at `[1,2) < [1,3) < [1,5)`. -/
theorem C9_witness : interval.lt ⟨1,2⟩ ⟨1,5⟩ = true :=
  C9_comparison_total_order.2.2.2.2.1 ⟨1,2⟩ ⟨1,3⟩ ⟨1,5⟩ (by decide)
    (by decide)

/-- C10: the binding's `insert` and `insert_sorted` both copy the caller's
Interval object by value into a freshly constructed Key; hence after
either call, any sequence of setter calls on caller-held Interval objects
leaves the resulting grove — its stored tree contents — equal to the grove
holding the value read at call time, and therefore every subsequent
`intersect` answer, named-index and all-indices alike, unchanged. -/
theorem C10_insert_copies_by_value (g : grove) (h : pyheap) (idx : String)
    (addr : Nat) (iv : interval) (ms : List pycmd) (q : interval)
    (name : String) (hget : pyheap.get h addr = some iv)
    (hmut : ∀ m ∈ ms, pycmd.is_mut m = true) :
    ((pyrun (pystep (g, h) (pycmd.ins idx addr)) ms).1 = g.insert idx ⟨iv⟩
      ∧ ((pyrun (pystep (g, h) (pycmd.ins idx addr)) ms).1).intersect_named
            q name
          = (g.insert idx ⟨iv⟩).intersect_named q name
      ∧ ((pyrun (pystep (g, h) (pycmd.ins idx addr)) ms).1).intersect_all q
          = (g.insert idx ⟨iv⟩).intersect_all q)
    ∧ ((pyrun (pystep (g, h) (pycmd.ins_sorted idx addr)) ms).1
          = g.insert_sorted idx ⟨iv⟩
      ∧ ((pyrun (pystep (g, h)
              (pycmd.ins_sorted idx addr)) ms).1).intersect_named q name
          = (g.insert_sorted idx ⟨iv⟩).intersect_named q name
      ∧ ((pyrun (pystep (g, h)
              (pycmd.ins_sorted idx addr)) ms).1).intersect_all q
          = (g.insert_sorted idx ⟨iv⟩).intersect_all q) := by
  have h1 : (pystep (g, h) (pycmd.ins idx addr)).1 = g.insert idx ⟨iv⟩ := by
    show binding_insert g h idx addr = g.insert idx ⟨iv⟩
    unfold binding_insert
    rw [hget]
  have h2 : (pystep (g, h) (pycmd.ins_sorted idx addr)).1
      = g.insert_sorted idx ⟨iv⟩ := by
    show binding_insert_sorted g h idx addr = g.insert_sorted idx ⟨iv⟩
    unfold binding_insert_sorted
    rw [hget]
  have hg1 : (pyrun (pystep (g, h) (pycmd.ins idx addr)) ms).1
      = g.insert idx ⟨iv⟩ := by
    rw [pyrun_mut_fst ms _ hmut, h1]
  have hg2 : (pyrun (pystep (g, h) (pycmd.ins_sorted idx addr)) ms).1
      = g.insert_sorted idx ⟨iv⟩ := by
    rw [pyrun_mut_fst ms _ hmut, h2]
  exact ⟨⟨hg1, by rw [hg1], by rw [hg1]⟩, hg2, by rw [hg2], by rw [hg2]⟩

/-- C10 witness: insert the object at address 0 (value `[1,5)`) into
`"chr1"`, then mutate its `start` to 99 and its `end` to 100; the
resulting grove equals the grove holding the value read at insert time. -/
theorem C10_witness :
    (pyrun (pystep (grove.empty 3, [(0, ⟨1,5⟩)]) (pycmd.ins "chr1" 0))
        [pycmd.write_start 0 99, pycmd.write_end 0 100]).1
      = (grove.empty 3).insert "chr1" ⟨⟨1,5⟩⟩ :=
  (C10_insert_copies_by_value (grove.empty 3) [(0, ⟨1,5⟩)] "chr1" 0 ⟨1,5⟩
    [pycmd.write_start 0 99, pycmd.write_end 0 100] ⟨0,10⟩ "chr1"
    (by decide) (by decide)).1.1
